import Mathlib

/-!
# Verification of the project-launcher dashboard core

A shallow embedding, in Lean 4, of the core logic of the `project-launcher`
Go program: the display-projection construction (sorting, category grouping,
index mapping), the edit-session entry, the cross-host launch command
construction, the link-open operation, and the column-layout computation.

Go strings are modelled as `List Char`.  Go compares strings bytewise over
UTF-8, which coincides with codepoint-lexicographic order, so `<` on strings
is modelled as lexicographic order on the character list.  `strings.ToLower`
and `strings.EqualFold` are modelled by ASCII case mapping (every string the
program's comparator lowers in the claims under study is ASCII; Go's Unicode
tables agree with the ASCII mapping on ASCII input).

Go `int` values that can be negative in the source (display indices, catalog
indices, column widths) are modelled as `Int`; loop counters that are
provably non-negative are modelled as `Nat`.
-/

/-- ASCII lowercasing of one character, as Go's `strings.ToLower` acts on
ASCII input: `'A'..'Z'` map to `'a'..'z'`, all else unchanged. -/
def lowerChar (c : Char) : Char :=
  if 'A' ≤ c ∧ c ≤ 'Z' then Char.ofNat (c.toNat + 32) else c

/-- `strings.ToLower` on an ASCII string. -/
def lowerStr (s : List Char) : List Char := s.map lowerChar

/-- Go's `<` on strings: lexicographic comparison (bytewise over UTF-8,
which is codepoint order). -/
def strLt : List Char → List Char → Bool
  | [], [] => false
  | [], _ :: _ => true
  | _ :: _, [] => false
  | a :: as, b :: bs => if a = b then strLt as bs else decide (a < b)

/-- `strings.EqualFold` on ASCII strings: equality after case folding. -/
def eqFold (a b : List Char) : Bool := lowerStr a == lowerStr b

/-- One managed project record (`type Project struct`, fields `Name`,
`Path`, `Command`, `Link`, `Category`, all strings). -/
structure Project where
  name : List Char
  path : List Char
  command : List Char
  link : List Char
  category : List Char
deriving DecidableEq, Repr

/-- The category string `"N/A"` substituted for an empty category. -/
def naCat : List Char := "N/A".toList

/-- The display category of a record: its category, with the empty string
mapped to `"N/A"`.  This mapping appears twice in the source, once inside
`getSortedProjects`' comparator (lines 592-599) and once in `updateTable`
(lines 144-147). -/
def displayCat (p : Project) : List Char :=
  if p.category = [] then naCat else p.category

/-- The comparator passed to `sort.Slice` in `getSortedProjects`
(lines 590-608): order by case-insensitive category (empty treated as
`"N/A"`), then by case-insensitive name. -/
def projLess (p q : Project) : Bool :=
  let categoryI := displayCat p
  let categoryJ := displayCat q
  if !eqFold categoryI categoryJ then
    strLt (lowerStr categoryI) (lowerStr categoryJ)
  else
    strLt (lowerStr p.name) (lowerStr q.name)

/-- Insertion of one element into a sorted prefix.  Go's `sort.Slice`
dispatches to an insertion sort for slices of at most 12 elements: the new
element is swapped leftwards while it is strictly `projLess` than its left
neighbour, so it comes to rest after every element it is not strictly less
than.  On a prefix that is sorted (the only state the algorithm ever
applies it to, and `projLess` complements a total preorder) this is the
same as inserting before the first element the new one is strictly less
than, which is what this function does. -/
def insertP (x : Project) : List Project → List Project
  | [] => [x]
  | y :: ys => if projLess x y then x :: y :: ys else y :: insertP x ys

/-- The insertion-sort loop: each element of the remaining input is
inserted into the accumulated sorted prefix, left to right. -/
def sortAux : List Project → List Project → List Project
  | acc, [] => acc
  | acc, z :: zs => sortAux (insertP z acc) zs

/-- `getSortedProjects` (lines 584-611): a copy of the catalog sorted with
`projLess`.  The source calls `sort.Slice`; the model is the insertion sort
that `sort.Slice` performs on slices of at most 12 elements.  `sort.Slice`
guarantees only a sorted permutation (it is documented as not stable), and
every theorem below relies only on the sorted-permutation contract and on
determinism, except where the development explicitly notes otherwise. -/
def getSortedProjects (projects : List Project) : List Project :=
  sortAux [] projects

/-- One row of the rebuilt table: either a synthetic category header
(`rows = append(rows, headerRow)`, carrying the display category that is
rendered as `"📂 " + category` in the first visible column), or a record
row backed by one project (whose cells are name, path, command, display
category and link, windowed by the horizontal scroll offset). -/
inductive Row where
  | header (category : List Char)
  | record (p : Project)
deriving DecidableEq, Repr

/-- The loop body of `updateTable` (lines 139-193): walk the sorted
projects, emit a header row whenever the display category differs from the
previously emitted one (`lastCategory` starts as the empty string), and a
record row for every project; alongside, build `projectIndices`, with `-1`
for a header row and the position of the record in the *sorted* slice for
a record row (`projectIndex` is a counter that only increments on record
rows). -/
def buildRows : List Project → List Char → Nat → List Row × List Int
  | [], _, _ => ([], [])
  | p :: ps, lastCategory, projectIndex =>
    let dc := displayCat p
    if dc = lastCategory then
      let r := buildRows ps lastCategory (projectIndex + 1)
      (Row.record p :: r.1, (projectIndex : Int) :: r.2)
    else
      let r := buildRows ps dc (projectIndex + 1)
      (Row.header dc :: Row.record p :: r.1,
        (-1 : Int) :: (projectIndex : Int) :: r.2)

/-- The row sequence `updateTable` installs with `m.table.SetRows(rows)`. -/
def updateTableRows (projects : List Project) : List Row :=
  (buildRows (getSortedProjects projects) [] 0).1

/-- The `m.projectIndices` map `updateTable` rebuilds. -/
def projectIndices (projects : List Project) : List Int :=
  (buildRows (getSortedProjects projects) [] 0).2

/-- A default record used only for list access that the source has already
bounds-checked (Go would panic on an out-of-range index; the model never
reaches the default). -/
def defaultProject : Project := ⟨[], [], [], [], []⟩

/-- The loop of `getOriginalIndexByDisplayIndex` (lines 661-668) and of
`getProjectByDisplayIndex` (lines 632-638): the index of the first catalog
record matching the given record on the `(name, path, command)` triple, or
`-1` when none matches. -/
def findOrig : List Project → Project → Int
  | [], _ => -1
  | p :: ps, q =>
    if p.name = q.name ∧ p.path = q.path ∧ p.command = q.command then 0
    else
      let r := findOrig ps q
      if r = -1 then -1 else r + 1

/-- `getOriginalIndexByDisplayIndex` (lines 642-669): map a display row to
the index of its backing record in the catalog (not the sorted copy), or
`-1` for an out-of-range row, a header row, or a failed identity match. -/
def getOriginalIndexByDisplayIndex (projects : List Project)
    (displayIndex : Int) : Int :=
  let pIdx := projectIndices projects
  if displayIndex < 0 ∨ (pIdx.length : Int) ≤ displayIndex then -1
  else
    let projectIndex := pIdx.getD displayIndex.toNat (-1)
    if projectIndex = -1 then -1
    else
      let sorted := getSortedProjects projects
      if (sorted.length : Int) ≤ projectIndex then -1
      else findOrig projects (sorted.getD projectIndex.toNat defaultProject)

/-- The identity the source uses to resolve a sorted entry back to a
catalog entry (lines 632-638 and 661-668): the `(name, path, command)`
triple. -/
def triple (p : Project) : List Char × List Char × List Char :=
  (p.name, p.path, p.command)

/-- Structural well-formedness of a row sequence with respect to a
"previously emitted category": a header appears exactly when the exact
display category changes (so one header per maximal run of records with
the same exact display category), every header is immediately followed by
a record of its category, and every record row carries the category of the
nearest preceding header. -/
def wfRowsB : List Row → List Char → Bool
  | [], _ => true
  | Row.header c :: Row.record p :: rest, lastCategory =>
    decide (c ≠ lastCategory) && decide (displayCat p = c) && wfRowsB rest c
  | Row.record p :: rest, lastCategory =>
    decide (displayCat p = lastCategory) && wfRowsB rest lastCategory
  | _, _ => false

/-- The record rows of a projection, in order, with headers dropped. -/
def recordsOf : List Row → List Project
  | [] => []
  | Row.header _ :: rest => recordsOf rest
  | Row.record p :: rest => p :: recordsOf rest

/-- How many header rows of a projection carry the given category. -/
def headerCount (rows : List Row) (c : List Char) : Nat :=
  rows.countP fun r =>
    match r with
    | Row.header c2 => c2 == c
    | Row.record _ => false

/-! ## Edit-session entry (`startEdit`) -/

/-- The slice of the `model` struct that `startEdit` (lines 272-303) reads
and writes: the catalog, the edit-session fields, the text-input state, and
the table cursor (`m.table.Cursor()`).  The text input is modelled by its
value and focus flag. -/
structure EditModel where
  projects : List Project
  editMode : Bool
  editRow : Int
  editCol : Int
  inputValue : List Char
  inputFocused : Bool
  cursor : Int
deriving DecidableEq, Repr

/-- The field read by ordinal, as the `switch m.editCol` of `startEdit`
(lines 288-299) selects it: 0 name, 1 path, 2 command, 3 link, 4 category;
any other ordinal leaves the Go `initialValue` variable at its zero value,
the empty string. -/
def fieldValue (p : Project) : Int → List Char
  | 0 => p.name
  | 1 => p.path
  | 2 => p.command
  | 3 => p.link
  | 4 => p.category
  | _ => []

/-- `startEdit` (lines 272-303).  Note the order of operations in the
source: `m.editMode = true` and the assignment of
`getOriginalIndexByDisplayIndex`'s result to `m.editRow` happen *before*
the `-1` validity check, so the early `return` on an invalid selection
leaves `editMode` set. -/
def startEdit (m : EditModel) : EditModel :=
  if m.projects.length = 0 then m
  else
    let r := getOriginalIndexByDisplayIndex m.projects m.cursor
    let m1 := { m with editMode := true, editRow := r }
    if r = -1 then m1
    else
      let m2 := { m1 with editCol := 0 }
      let project := m1.projects.getD r.toNat defaultProject
      let initialValue := fieldValue project m2.editCol
      { m2 with inputValue := initialValue, inputFocused := true }

/-! ## The launcher -/

/-- What `exec.Command` plus the subsequent field assignments construct
before `cmd.Start()`: the program, its argument list, the working directory
(`cmd.Dir`, unset for the foreign-host branches), and the
`syscall.SysProcAttr` process-group fields (`Setpgid`, `Pgid`; unset - the
Go zero values `false` and `0` - except in the native branch). -/
structure SpawnSpec where
  program : List Char
  args : List (List Char)
  dir : Option (List Char)
  setpgid : Bool
  pgid : Int
deriving DecidableEq, Repr

/-- `a` is a leading piece of `b`. -/
def isPrefixL : List Char → List Char → Bool
  | [], _ => true
  | _ :: _, [] => false
  | a :: as, b :: bs => a = b && isPrefixL as bs

/-- Go's `strings.HasSuffix`: `pat` is a trailing piece of `s`. -/
def isSuffixL (pat s : List Char) : Bool := isPrefixL pat.reverse s.reverse

/-- The scan of Go's `strings.ReplaceAll`, with a step-count bound making
the recursion structural: at an occurrence of `pat` (non-empty in every
use, so at least one character is consumed) emit `rep` and resume after
the occurrence, otherwise keep one character; thus every non-overlapping
occurrence, scanned left to right, is replaced.  With `fuel` at least the
length of the string the bound is never hit. -/
def replaceFuel (pat rep : List Char) : Nat → List Char → List Char
  | 0, s => s
  | fuel + 1, s =>
    match s with
    | [] => []
    | c :: rest =>
      if pat ≠ [] ∧ isPrefixL pat (c :: rest) = true then
        rep ++ replaceFuel pat rep fuel ((c :: rest).drop pat.length)
      else
        c :: replaceFuel pat rep fuel rest

/-- Go's `strings.ReplaceAll s pat rep` for a non-empty pattern.  (For an
empty pattern Go interleaves `rep` between characters; the model returns
`s` unchanged instead, and the program only ever passes the non-empty
patterns `"/mnt/c"` and `"/"`.) -/
def replaceAll (pat rep s : List Char) : List Char :=
  replaceFuel pat rep s.length s

/-- The path translation of `launchProject`'s foreign-host branch
(lines 524-525): replace every occurrence of `"/mnt/c"` by `"C:"`, then
every `"/"` by `"\"`. -/
def windowsPath (path : List Char) : List Char :=
  replaceAll ("/".toList) ("\\".toList)
    (replaceAll ("/mnt/c".toList) ("C:".toList) path)

/-- The host-selection test of `launchProject` (line 519):
`strings.HasPrefix(project.Path, "/mnt/c/")`. -/
def isWindowsPath (p : Project) : Bool := isPrefixL ("/mnt/c/".toList) p.path

/-- `launchProject` (lines 517-549), up to `cmd.Start()`: the command the
launcher constructs for a record.  Foreign-host records (path under
`/mnt/c/`) go through `powershell.exe -Command`, with `Start-Process` when
the command ends in `.exe`; all other records go through
`bash -c "cd '<path>' && <command>"` with the working directory set to the
record's path and `SysProcAttr{Setpgid: true, Pgid: 0}`, which makes the
child the leader of a fresh process group (its PID becomes the PGID),
distinct from the launcher's group. -/
def launchProject (project : Project) : SpawnSpec :=
  if isWindowsPath project then
    let wp := windowsPath project.path
    if isSuffixL (".exe".toList) project.command then
      { program := "powershell.exe".toList,
        args := ["-Command".toList,
          "Set-Location '".toList ++ wp ++ "'; Start-Process '".toList ++
            project.command ++ "'".toList],
        dir := none, setpgid := false, pgid := 0 }
    else
      { program := "powershell.exe".toList,
        args := ["-Command".toList,
          "Set-Location '".toList ++ wp ++ "'; ".toList ++ project.command],
        dir := none, setpgid := false, pgid := 0 }
  else
    { program := "bash".toList,
      args := ["-c".toList,
        "cd '".toList ++ project.path ++ "' && ".toList ++ project.command],
      dir := some project.path, setpgid := true, pgid := 0 }

/-- `openProjectLink` (lines 568-582).  The spawn error, if any, is an
oracle for the outcome of `cmd.Start()` (the OS either creates the process
or reports an error string).  The result is the spawn the function issues
(`none` when it spawns nothing) paired with the status message it reports;
the function always returns a status and never terminates the dashboard. -/
def openProjectLink (project : Project) (spawnErr : Option (List Char)) :
    Option SpawnSpec × List Char :=
  if project.link = [] then (none, "📭 No Link Associated".toList)
  else
    let cmd : SpawnSpec :=
      { program := "cmd.exe".toList,
        args := ["/c".toList, "start".toList, project.link],
        dir := none, setpgid := false, pgid := 0 }
    match spawnErr with
    | some e => (some cmd, "❌ Failed to open link: ".toList ++ e)
    | none =>
      (some cmd,
        "🌐 Opened ".toList ++ project.name ++ " link in browser".toList)

/-! ## Column layout (`adjustLayout`) -/

/-- A table column: title and width (`table.Column`). -/
structure Column where
  title : List Char
  width : Int
deriving DecidableEq, Repr

/-- The five nominal columns of `adjustLayout` (lines 207-213). -/
def allColumnsInit : List Column :=
  [⟨"Name".toList, 30⟩, ⟨"Path".toList, 35⟩, ⟨"Command".toList, 35⟩,
   ⟨"Category".toList, 15⟩, ⟨"Link".toList, 30⟩]

/-- The greedy fitting loop of `adjustLayout` (lines 216-228): count the
longest prefix of columns whose cumulative width stays within the
available width, stopping at the first column that does not fit. -/
def countFit : List Column → Int → Int → Nat
  | [], _, _ => 0
  | col :: cols, availableWidth, totalWidth =>
    if totalWidth + col.width ≤ availableWidth then
      countFit cols availableWidth (totalWidth + col.width) + 1
    else 0

/-- `allColumns[0].Width = availableWidth` (line 234). -/
def setFirstWidth (cols : List Column) (w : Int) : List Column :=
  match cols with
  | [] => []
  | c :: cs => { c with width := w } :: cs

/-- `visibleColumns[len(visibleColumns)-1].Width += extraWidth`
(line 263). -/
def addLastWidth (cols : List Column) (d : Int) : List Column :=
  match cols with
  | [] => []
  | [c] => [{ c with width := c.width + d }]
  | c :: cs => c :: addLastWidth cs d

/-- The scroll-window clamp of `adjustLayout` (lines 238-247): the window
`[startCol, endCol)` of `visibleCols` columns starting at the scroll
offset, pulled back so it does not overrun `len` columns (and not below
0, which `Nat` subtraction gives directly). -/
def clampWindow (len visibleCols off : Nat) : Nat × Nat :=
  if off + visibleCols > len then (len - visibleCols, len)
  else (off, off + visibleCols)

/-- What `adjustLayout` computes: the visible columns it installs with
`m.table.SetColumns`, the possibly clamped scroll offset it writes back,
and the table height. -/
structure LayoutResult where
  visibleColumns : List Column
  scrollOffset : Nat
  tableHeight : Int
deriving DecidableEq, Repr

/-- `adjustLayout` (lines 197-270).  The scroll offset is a `Nat`: the
model only ever stores non-negative offsets in `m.scrollOffset` (it starts
at 0, is decremented only when positive, and the clamp here never writes a
negative value). -/
def adjustLayout (width height : Int) (scrollOffset : Nat) : LayoutResult :=
  let tableHeight0 := height - 6
  let tableHeight := if tableHeight0 < 5 then 5 else tableHeight0
  let availableWidth := width - 6
  let fitCount := countFit allColumnsInit availableWidth 0
  let visibleCols := if fitCount = 0 then 1 else fitCount
  let allCols :=
    if fitCount = 0 then setFirstWidth allColumnsInit availableWidth
    else allColumnsInit
  let w := clampWindow allColumnsInit.length visibleCols scrollOffset
  let visibleColumns0 := (allCols.drop w.1).take (w.2 - w.1)
  let usedWidth := (visibleColumns0.map Column.width).sum
  let extraWidth := availableWidth - usedWidth
  let visibleColumns :=
    if 0 < extraWidth then addLastWidth visibleColumns0 extraWidth
    else visibleColumns0
  ⟨visibleColumns, w.1, tableHeight⟩

/-! ## Concrete instances used by the theorems below -/

/-- `{name:"Zeta",category:"Web"}` of the spec's projection scenario. -/
def zetaRec : Project := ⟨"Zeta".toList, [], [], [], "Web".toList⟩

/-- `{name:"Alpha",category:"Web"}` of the spec's projection scenario. -/
def alphaRec : Project := ⟨"Alpha".toList, [], [], [], "Web".toList⟩

/-- `{name:"Beta",category:""}` of the spec's projection scenario. -/
def betaRec : Project := ⟨"Beta".toList, [], [], [], []⟩

/-- The catalog of the spec's projection scenario. -/
def scenarioCatalog : List Project := [zetaRec, alphaRec, betaRec]

/-- Two records sharing the `(name, path, command)` identity triple but
differing in category. -/
def dupRecX : Project :=
  ⟨"A".toList, "p".toList, "c".toList, [], "X".toList⟩

/-- See `dupRecX`. -/
def dupRecY : Project :=
  ⟨"A".toList, "p".toList, "c".toList, [], "Y".toList⟩

/-- A catalog with an ambiguous identity triple. -/
def dupCatalog : List Project := [dupRecX, dupRecY]

/-- A catalog whose category `"Web"` appears under two spellings that the
sort folds together but the header emission distinguishes. -/
def caseCatalog : List Project :=
  [⟨"a".toList, [], [], [], "Web".toList⟩,
   ⟨"b".toList, [], [], [], "WEB".toList⟩,
   ⟨"c".toList, [], [], [], "Web".toList⟩]

/-- Two records the sort comparator cannot tell apart: same name and
category (so equal sort keys), different paths. -/
def tiedRecA : Project :=
  ⟨"x".toList, "p1".toList, "run".toList, [], "Web".toList⟩

/-- See `tiedRecA`. -/
def tiedRecB : Project :=
  ⟨"x".toList, "p2".toList, "run".toList, [], "Web".toList⟩

/-- The native-host launch scenario: path `/home/x/api`, command
`python main.py`. -/
def nativeRec : Project :=
  ⟨"api".toList, "/home/x/api".toList, "python main.py".toList, [], []⟩

/-- The foreign-host launch scenario: path `/mnt/c/Users/x/app`, command
`app.exe`. -/
def exeRec : Project :=
  ⟨"app".toList, "/mnt/c/Users/x/app".toList, "app.exe".toList, [], []⟩

/-- A foreign-host record whose command is not a `.exe`. -/
def scriptRec : Project :=
  ⟨"scr".toList, "/mnt/c/Users/x/app".toList, "run.py".toList, [], []⟩

/-- A record with an empty link. -/
def noLinkRec : Project :=
  ⟨"api".toList, "/home/x/api".toList, "make".toList, [], []⟩

/-- A record with a link. -/
def linkRec : Project :=
  ⟨"api".toList, "/home/x/api".toList, "make".toList,
   "https://example.com".toList, []⟩

/-- A model state whose catalog has one record, with the cursor on display
row 0 - which is that record's category header row - and edit mode off. -/
def headerSelModel : EditModel :=
  ⟨[dupRecX], false, -1, -1, [], false, 0⟩

/-- A model state with an empty catalog. -/
def emptyCatModel : EditModel := ⟨[], false, -1, -1, [], false, 0⟩

/-! ## Theorems: concrete claim instances -/

/-- **C4** (corrected): what the rebuilt projection actually is for the
catalog `[{Zeta,Web}, {Alpha,Web}, {Beta,""}]`.  The empty category maps to
`"N/A"`, and the comparator orders categories by lowercased string, so
`"n/a" < "web"` puts the `N/A` group *before* the `Web` group: the rows are
`[header "N/A", Beta, header "Web", Alpha, Zeta]`. -/
theorem c4_actual_projection :
    updateTableRows scenarioCatalog =
      [Row.header naCat, Row.record betaRec, Row.header ("Web".toList),
       Row.record alphaRec, Row.record zetaRec] := by decide

/-- **C4** counterexample: the projection claimed by the spec scenario,
`[header "Web", Alpha, Zeta, header "N/A", Beta]`, is not what the code
produces for that catalog. -/
theorem c4_claimed_projection_cex :
    updateTableRows scenarioCatalog ≠
      [Row.header ("Web".toList), Row.record alphaRec, Row.record zetaRec,
       Row.header naCat, Row.record betaRec] := by decide

/-- **C2** counterexample: in the catalog
`[{a,"Web"}, {b,"WEB"}, {c,"Web"}]` the sort folds the category spellings
`"Web"` and `"WEB"` together (so the sorted order is `a, b, c`), but the
header emission compares display categories exactly; the projection
therefore carries *two* header rows with the value `"Web"`, not exactly
one header per distinct display-category value. -/
theorem c2_case_variant_cex :
    updateTableRows caseCatalog =
      [Row.header ("Web".toList),
       Row.record ⟨"a".toList, [], [], [], "Web".toList⟩,
       Row.header ("WEB".toList),
       Row.record ⟨"b".toList, [], [], [], "WEB".toList⟩,
       Row.header ("Web".toList),
       Row.record ⟨"c".toList, [], [], [], "Web".toList⟩] ∧
    headerCount (updateTableRows caseCatalog) ("Web".toList) = 2 := by decide

/-- **C3** (code bug): the two tied records - equal category and equal
name, differing only in path - are indistinguishable to the comparator the
source passes to `sort.Slice`: `projLess` answers `false` both ways.  The
source sorts with `sort.Slice`, which Go documents as *not* guaranteed to
be stable (`sort.SliceStable` is the stable variant), so nothing in the
code enforces the original relative order of such records; the spec's
"stable sort" is the stated intent. -/
theorem c3_tied_records_incomparable :
    projLess tiedRecA tiedRecB = false ∧
    projLess tiedRecB tiedRecA = false := by decide

/-- **C5** (code bug): `startEdit` with a non-empty catalog and the cursor
on a category header row is *not* a no-op: the source sets
`m.editMode = true` and `m.editRow = -1` before validating the selection,
so the early return leaves the model in edit mode.  (The catalog itself is
untouched, the text input is not focused, and the empty-catalog case is a
true no-op.) -/
theorem c5_startEdit_header_not_noop :
    (projectIndices headerSelModel.projects).getD 0 (-1) = -1 ∧
    headerSelModel.editMode = false ∧
    (startEdit headerSelModel).editMode = true ∧
    (startEdit headerSelModel).editRow = -1 ∧
    (startEdit headerSelModel).projects = headerSelModel.projects ∧
    (startEdit headerSelModel).inputFocused = false ∧
    startEdit emptyCatModel = emptyCatModel := by decide

/-- **C10** (confirmed): the foreign-host path translation is a global
`ReplaceAll`: every occurrence of `"/mnt/c"` becomes `"C:"` and every
`"/"` becomes `"\"`, not only the leading mount prefix - the path
`/mnt/c/a/mnt/c/b` has both occurrences rewritten, giving `C:\aC:\b` - and
the scenario path `/mnt/c/Users/x/app` translates to `C:\Users\x\app`. -/
theorem c10_replace_all_occurrences :
    windowsPath ("/mnt/c/a/mnt/c/b".toList) = "C:\\aC:\\b".toList ∧
    windowsPath ("/mnt/c/Users/x/app".toList) = "C:\\Users\\x\\app".toList
    := by decide

/-! ## Theorems: the launcher -/

/-- **C6** (confirmed): for every record whose path does not start with
`/mnt/c/`, `launchProject` builds the single shell invocation
`bash -c "cd '<path>' && <command>"`, sets the child's working directory
to the record's path, and sets `SysProcAttr{Setpgid: true, Pgid: 0}` - the
primitive that makes the spawned child the leader of a fresh process
group, distinct from the launcher's. -/
theorem c6_native_launch (p : Project) (h : isWindowsPath p = false) :
    launchProject p =
      { program := "bash".toList,
        args := ["-c".toList,
          "cd '".toList ++ p.path ++ "' && ".toList ++ p.command],
        dir := some p.path, setpgid := true, pgid := 0 } := by
  simp [launchProject, h]

/-- **C6** witness: the spec scenario, path `/home/x/api` and command
`python main.py`. -/
theorem c6_native_launch_witness :
    launchProject nativeRec =
      { program := "bash".toList,
        args := ["-c".toList, "cd '/home/x/api' && python main.py".toList],
        dir := some ("/home/x/api".toList), setpgid := true, pgid := 0 }
    := by
  rw [c6_native_launch nativeRec (by decide)]; decide

/-- **C7** (confirmed): for every record whose path starts with `/mnt/c/`,
`launchProject` invokes `powershell.exe -Command`; when the command ends
in `.exe` the PowerShell command is
`Set-Location '<translated>'; Start-Process '<command>'` (the "start as
process" branch), and otherwise the command is invoked directly as
`Set-Location '<translated>'; <command>`, where `<translated>` is the
`windowsPath` drive-letter/backslash translation of the record's path. -/
theorem c7_foreign_launch (p : Project) (h : isWindowsPath p = true) :
    (isSuffixL (".exe".toList) p.command = true →
      launchProject p =
        { program := "powershell.exe".toList,
          args := ["-Command".toList,
            "Set-Location '".toList ++ windowsPath p.path ++
              "'; Start-Process '".toList ++ p.command ++ "'".toList],
          dir := none, setpgid := false, pgid := 0 }) ∧
    (isSuffixL (".exe".toList) p.command = false →
      launchProject p =
        { program := "powershell.exe".toList,
          args := ["-Command".toList,
            "Set-Location '".toList ++ windowsPath p.path ++ "'; ".toList
              ++ p.command],
          dir := none, setpgid := false, pgid := 0 }) := by
  refine ⟨fun hs => ?_, fun hs => ?_⟩
  · unfold launchProject
    rw [if_pos h, if_pos hs]
  · unfold launchProject
    rw [if_pos h, if_neg (by simpa using hs)]

/-- **C7** witness: the spec scenario, path `/mnt/c/Users/x/app` and
command `app.exe`, lands in the `Start-Process` branch with the translated
path `C:\Users\x\app`; a `.py` command at the same path is invoked
directly. -/
theorem c7_foreign_launch_witness :
    launchProject exeRec =
      { program := "powershell.exe".toList,
        args := ["-Command".toList,
          "Set-Location 'C:\\Users\\x\\app'; Start-Process 'app.exe'".toList],
        dir := none, setpgid := false, pgid := 0 } ∧
    launchProject scriptRec =
      { program := "powershell.exe".toList,
        args := ["-Command".toList,
          "Set-Location 'C:\\Users\\x\\app'; run.py".toList],
        dir := none, setpgid := false, pgid := 0 } := by
  constructor
  · rw [(c7_foreign_launch exeRec (by decide)).1 (by decide)]; decide
  · rw [(c7_foreign_launch scriptRec (by decide)).2 (by decide)]; decide

/-- **C9** (confirmed): `openProjectLink` with an empty link reports
`"📭 No Link Associated"` and spawns nothing; with a non-empty link it
hands the link to `cmd.exe /c start` (the foreign host's default-handler
invocation), reporting a failure status when the spawn fails and a success
status otherwise - in every case it returns a status rather than
terminating the dashboard. -/
theorem c9_open_link (p : Project) (err : Option (List Char)) :
    (p.link = [] →
      openProjectLink p err = (none, "📭 No Link Associated".toList)) ∧
    (p.link ≠ [] →
      (openProjectLink p err).1 =
        some { program := "cmd.exe".toList,
               args := ["/c".toList, "start".toList, p.link],
               dir := none, setpgid := false, pgid := 0 } ∧
      (∀ e, err = some e →
        (openProjectLink p err).2 = "❌ Failed to open link: ".toList ++ e) ∧
      (err = none →
        (openProjectLink p err).2 =
          "🌐 Opened ".toList ++ p.name ++ " link in browser".toList)) := by
  refine ⟨fun h => ?_, fun h => ?_⟩
  · simp [openProjectLink, h]
  · refine ⟨?_, fun e he => ?_, fun he => ?_⟩ <;>
      cases err <;> simp_all [openProjectLink, h]

/-- **C9** witness: a record with an empty link spawns nothing and reports
the no-link status; a record with a link spawns `cmd.exe /c start <link>`
and reports success when the spawn succeeds. -/
theorem c9_open_link_witness :
    openProjectLink noLinkRec none =
      (none, "📭 No Link Associated".toList) ∧
    (openProjectLink linkRec none).1 =
      some { program := "cmd.exe".toList,
             args := ["/c".toList, "start".toList,
               "https://example.com".toList],
             dir := none, setpgid := false, pgid := 0 } ∧
    (openProjectLink linkRec none).2 =
      "🌐 Opened api link in browser".toList := by
  refine ⟨(c9_open_link noLinkRec none).1 (by decide), ?_, ?_⟩
  · rw [((c9_open_link linkRec none).2 (by decide)).1]; decide
  · rw [((c9_open_link linkRec none).2 (by decide)).2.2 rfl]; decide

/-! ## Theorems: column layout -/

/-- The greedy fitting count never exceeds the number of columns. -/
theorem countFit_le (cols : List Column) (a t : Int) :
    countFit cols a t ≤ cols.length := by
  induction cols generalizing t with
  | nil => simp [countFit]
  | cons c cs ih =>
    simp only [countFit, List.length_cons]
    split
    · exact Nat.succ_le_succ (ih _)
    · exact Nat.zero_le _

/-- Widening the last column does not change how many columns there are. -/
theorem addLastWidth_length (cols : List Column) (d : Int) :
    (addLastWidth cols d).length = cols.length := by
  induction cols with
  | nil => rfl
  | cons c cs ih =>
    cases cs with
    | nil => rfl
    | cons c2 cs2 =>
      simp only [addLastWidth, List.length_cons] at ih ⊢
      omega

/-- Forcing the first column's width does not change how many columns
there are. -/
theorem setFirstWidth_length (cols : List Column) (w : Int) :
    (setFirstWidth cols w).length = cols.length := by
  cases cols <;> rfl

/-- **C8** (corrected, amended): `adjustLayout` always yields at least one
visible column; when the available width (`width - 6`) is smaller than
every nominal column width, it yields exactly one visible column, and when
the horizontal scroll offset is 0 that column's width is the available
width (at a positive offset the selected column keeps its nominal width;
see the counterexample). -/
theorem c8_layout_min_columns (width height : Int) (off : Nat) :
    1 ≤ (adjustLayout width height off).visibleColumns.length ∧
    ((∀ c ∈ allColumnsInit, width - 6 < c.width) →
      (adjustLayout width height off).visibleColumns.length = 1 ∧
      (off = 0 →
        (adjustLayout width height off).visibleColumns.map Column.width =
          [width - 6])) := by
  have hfc5 : countFit allColumnsInit (width - 6) 0 ≤ 5 := by
    simpa [allColumnsInit] using countFit_le allColumnsInit (width - 6) 0
  have hlen : ∀ fc : Nat, countFit allColumnsInit (width - 6) 0 = fc →
      (adjustLayout width height off).visibleColumns.length =
        (if fc = 0 then 1 else fc) := by
    intro fc hfc
    simp only [adjustLayout, hfc]
    rw [apply_ite List.length]
    rw [addLastWidth_length]
    rw [ite_self]
    simp only [List.length_take, List.length_drop, apply_ite List.length,
      setFirstWidth_length]
    simp only [allColumnsInit, List.length_cons, List.length_nil, ite_self]
    unfold clampWindow
    split_ifs with h0 hcl hcl
    all_goals omega
  refine ⟨?_, fun hsmall => ?_⟩
  · rw [hlen _ rfl]
    split <;> omega
  · have h30 : width - 6 < 30 := by
      have := hsmall ⟨"Name".toList, 30⟩ (by simp [allColumnsInit])
      simpa using this
    have hfc0 : countFit allColumnsInit (width - 6) 0 = 0 := by
      simp only [allColumnsInit, countFit]
      split_ifs with h
      · exact absurd h (by omega)
      · rfl
    refine ⟨by simpa using hlen 0 hfc0, fun hoff => ?_⟩
    subst hoff
    simp only [adjustLayout, hfc0]
    norm_num [clampWindow, setFirstWidth, allColumnsInit]

/-- **C8** witness: at pane width 10 (available width 4, smaller than
every nominal column width) and scroll offset 0, the layout is exactly one
column of width 4. -/
theorem c8_layout_witness :
    1 ≤ (adjustLayout 10 24 0).visibleColumns.length ∧
    (adjustLayout 10 24 0).visibleColumns.length = 1 ∧
    (adjustLayout 10 24 0).visibleColumns.map Column.width = [(10 : Int) - 6]
    := by
  have h := c8_layout_min_columns 10 24 0
  have h2 := h.2 (by decide)
  exact ⟨h.1, h2.1, h2.2 rfl⟩

/-- **C8** counterexample: at pane width 20 the available width 14 is
smaller than every nominal column width, yet at scroll offset 1 the single
visible column is the `Path` column at its nominal width 35, not the
available width - so "its width equals the available width" fails for a
positive scroll offset. -/
theorem c8_offset_width_cex :
    (∀ c ∈ allColumnsInit, (20 : Int) - 6 < c.width) ∧
    (adjustLayout 20 24 1).visibleColumns =
      [{ title := "Path".toList, width := 35 }] ∧
    (adjustLayout 20 24 1).visibleColumns.map Column.width ≠ [(20 : Int) - 6]
    := by decide

/-! ## Theorems: projection grouping -/

/-- The row/index pair built by `buildRows` is well formed relative to the
category last emitted: headers appear exactly at exact display-category
changes, and every record row carries the category of the nearest
preceding header. -/
theorem wfRowsB_buildRows (ps : List Project) :
    ∀ (lastCat : List Char) (n : Nat),
      wfRowsB (buildRows ps lastCat n).1 lastCat = true := by
  induction ps with
  | nil => intro lastCat n; rfl
  | cons p ps ih =>
    intro lastCat n
    by_cases hdc : displayCat p = lastCat
    · simp only [buildRows, if_pos hdc]
      simp [wfRowsB, hdc, ih]
    · simp only [buildRows, if_neg hdc]
      simp [wfRowsB, hdc, ih]

/-- Dropping the header rows of the built projection gives back exactly
the project list it was built from. -/
theorem recordsOf_buildRows (ps : List Project) :
    ∀ (lastCat : List Char) (n : Nat),
      recordsOf (buildRows ps lastCat n).1 = ps := by
  induction ps with
  | nil => intro lastCat n; rfl
  | cons p ps ih =>
    intro lastCat n
    by_cases hdc : displayCat p = lastCat
    · simp only [buildRows, if_pos hdc]
      simp [recordsOf, ih]
    · simp only [buildRows, if_neg hdc]
      simp [recordsOf, ih]

/-- **C2** (corrected, amended): for every catalog, the record rows of the
rebuilt projection are exactly the sorted catalog copy in order, and the
projection is well grouped in the sense of `wfRowsB`: a header row appears
exactly when the exact display category (empty mapped to `"N/A"`) differs
from the previously emitted one - so exactly one header per maximal run of
records with the same exact display category - every header is immediately
followed by a record of its category, and every record row between a
header and the next header carries that header's display category
(contiguity).  "Exactly one header per distinct display-category value"
holds only when equal-up-to-case categories are spelled identically; see
the counterexample. -/
theorem c2_header_grouping (projects : List Project) :
    recordsOf (updateTableRows projects) = getSortedProjects projects ∧
    wfRowsB (updateTableRows projects) [] = true :=
  ⟨recordsOf_buildRows _ _ _, wfRowsB_buildRows _ _ _⟩

/-! ## Theorems: the display-to-catalog index map -/

/-- Inserting into the sorted prefix is a permutation. -/
theorem insertP_perm (x : Project) (l : List Project) :
    (insertP x l).Perm (x :: l) := by
  induction l with
  | nil => exact List.Perm.refl _
  | cons y ys ih =>
    simp only [insertP]
    split
    · exact List.Perm.refl _
    · exact (ih.cons y).trans (List.Perm.swap x y ys)

/-- The insertion-sort loop permutes the prefix and the remaining input. -/
theorem sortAux_perm (zs : List Project) :
    ∀ acc : List Project, (sortAux acc zs).Perm (acc ++ zs) := by
  induction zs with
  | nil => intro acc; simp [sortAux]
  | cons z zs ih =>
    intro acc
    exact (ih _).trans
      (((insertP_perm z acc).append_right zs).trans List.perm_middle.symm)

/-- The sorted copy is a permutation of the catalog. -/
theorem getSortedProjects_perm (projects : List Project) :
    (getSortedProjects projects).Perm projects := by
  simpa using sortAux_perm projects []

/-- Every non-header entry of the index list built by `buildRows` is the
running record counter at its position: it is `n + j` for the `j`-th
record of the input, and the row at the same display position is that
record's row. -/
theorem buildRows_record_spec (ps : List Project) :
    ∀ (lastCat : List Char) (n : Nat) (d : Nat) (k : Int),
      (buildRows ps lastCat n).2.get? d = some k → k ≠ -1 →
      ∃ (j : Nat) (p : Project),
        ps.get? j = some p ∧ k = ((n + j : Nat) : Int) ∧
        (buildRows ps lastCat n).1.get? d = some (Row.record p) := by
  induction ps with
  | nil => intro lastCat n d k h _; simp [buildRows] at h
  | cons p ps ih =>
    intro lastCat n d k hk hne
    by_cases hdc : displayCat p = lastCat
    · simp only [buildRows, if_pos hdc] at hk ⊢
      match d with
      | 0 =>
        simp only [List.get?_cons_zero, Option.some.injEq] at hk
        exact ⟨0, p, by simp, by omega, by simp⟩
      | Nat.succ d =>
        simp only [List.get?_cons_succ] at hk
        obtain ⟨j, q, hq, hkj, hrow⟩ := ih lastCat (n + 1) d k hk hne
        refine ⟨j + 1, q, by simpa using hq, ?_, by simpa using hrow⟩
        rw [hkj]; congr 1; omega
    · simp only [buildRows, if_neg hdc] at hk ⊢
      match d with
      | 0 =>
        simp only [List.get?_cons_zero, Option.some.injEq] at hk
        exact absurd hk.symm hne
      | 1 =>
        simp only [List.get?_cons_succ, List.get?_cons_zero,
          Option.some.injEq] at hk
        exact ⟨0, p, by simp, by omega, by simp⟩
      | Nat.succ (Nat.succ d) =>
        simp only [List.get?_cons_succ] at hk
        obtain ⟨j, q, hq, hkj, hrow⟩ := ih (displayCat p) (n + 1) d k hk hne
        refine ⟨j + 1, q, by simpa using hq, ?_, by simpa using hrow⟩
        rw [hkj]; congr 1; omega

/-- Every entry of the index list built with counter `n` is the header
sentinel or at least `n`. -/
theorem buildRows_lb (ps : List Project) :
    ∀ (lastCat : List Char) (n : Nat) (d : Nat) (k : Int),
      (buildRows ps lastCat n).2.get? d = some k →
      k = -1 ∨ (n : Int) ≤ k := by
  induction ps with
  | nil => intro lastCat n d k h; simp [buildRows] at h
  | cons p ps ih =>
    intro lastCat n d k hk
    by_cases hdc : displayCat p = lastCat
    · simp only [buildRows, if_pos hdc] at hk
      match d with
      | 0 =>
        simp only [List.get?_cons_zero, Option.some.injEq] at hk
        right; omega
      | Nat.succ d =>
        simp only [List.get?_cons_succ] at hk
        rcases ih lastCat (n + 1) d k hk with h | h
        · exact Or.inl h
        · right; push_cast at h ⊢; omega
    · simp only [buildRows, if_neg hdc] at hk
      match d with
      | 0 =>
        simp only [List.get?_cons_zero, Option.some.injEq] at hk
        exact Or.inl hk.symm
      | 1 =>
        simp only [List.get?_cons_succ, List.get?_cons_zero,
          Option.some.injEq] at hk
        right; omega
      | Nat.succ (Nat.succ d) =>
        simp only [List.get?_cons_succ] at hk
        rcases ih (displayCat p) (n + 1) d k hk with h | h
        · exact Or.inl h
        · right; push_cast at h ⊢; omega

/-- Along the index list built by `buildRows`, non-header entries strictly
increase with the display position. -/
theorem buildRows_mono (ps : List Project) :
    ∀ (lastCat : List Char) (n : Nat) (d1 d2 : Nat) (k1 k2 : Int),
      d1 < d2 →
      (buildRows ps lastCat n).2.get? d1 = some k1 →
      (buildRows ps lastCat n).2.get? d2 = some k2 →
      k1 ≠ -1 → k2 ≠ -1 → k1 < k2 := by
  induction ps with
  | nil => intro lastCat n d1 d2 k1 k2 _ h1 _ _ _; simp [buildRows] at h1
  | cons p ps ih =>
    intro lastCat n d1 d2 k1 k2 hlt h1 h2 hne1 hne2
    by_cases hdc : displayCat p = lastCat
    · simp only [buildRows, if_pos hdc] at h1 h2
      match d1, d2, hlt with
      | 0, Nat.succ d2, _ =>
        simp only [List.get?_cons_zero, Option.some.injEq] at h1
        simp only [List.get?_cons_succ] at h2
        rcases buildRows_lb ps lastCat (n + 1) d2 k2 h2 with h | h
        · exact absurd h hne2
        · push_cast at h; omega
      | Nat.succ d1, Nat.succ d2, hlt =>
        simp only [List.get?_cons_succ] at h1 h2
        exact ih lastCat (n + 1) d1 d2 k1 k2 (by omega) h1 h2 hne1 hne2
    · simp only [buildRows, if_neg hdc] at h1 h2
      match d1, d2, hlt with
      | 0, _, _ =>
        simp only [List.get?_cons_zero, Option.some.injEq] at h1
        exact absurd h1.symm hne1
      | 1, Nat.succ (Nat.succ d2), _ =>
        simp only [List.get?_cons_succ, List.get?_cons_zero,
          Option.some.injEq] at h1
        simp only [List.get?_cons_succ] at h2
        rcases buildRows_lb ps (displayCat p) (n + 1) d2 k2 h2 with h | h
        · exact absurd h hne2
        · push_cast at h; omega
      | Nat.succ (Nat.succ d1), Nat.succ (Nat.succ d2), hlt =>
        simp only [List.get?_cons_succ] at h1 h2
        exact ih (displayCat p) (n + 1) d1 d2 k1 k2 (by omega) h1 h2 hne1 hne2

/-- Triple equality is exactly the field conjunction the source's matching
loop tests. -/
theorem triple_eq_iff (p q : Project) :
    triple p = triple q ↔
      p.name = q.name ∧ p.path = q.path ∧ p.command = q.command := by
  simp [triple]

/-- When some record of the list matches the sought record's triple,
`findOrig` returns the position of the first such record. -/
theorem findOrig_found (l : List Project) (q : Project) :
    (∃ p ∈ l, triple p = triple q) →
    ∃ i : Nat, findOrig l q = (i : Int) ∧
      ∃ p, l.get? i = some p ∧ triple p = triple q := by
  induction l with
  | nil => simp
  | cons p ps ih =>
    intro hex
    by_cases hm : p.name = q.name ∧ p.path = q.path ∧ p.command = q.command
    · exact ⟨0, by simp [findOrig, hm], p, by simp,
        (triple_eq_iff p q).mpr hm⟩
    · have hex2 : ∃ r ∈ ps, triple r = triple q := by
        rcases hex with ⟨r, hr, htr⟩
        rcases List.mem_cons.mp hr with rfl | hr2
        · exact absurd ((triple_eq_iff r q).mp htr) hm
        · exact ⟨r, hr2, htr⟩
      obtain ⟨i, hfi, r, hri, htr⟩ := ih hex2
      refine ⟨i + 1, ?_, r, by simpa using hri, htr⟩
      simp only [findOrig, if_neg hm]
      rw [hfi, if_neg (by omega)]
      push_cast
      ring

/-- Two positions holding the same value in a duplicate-free list are
equal. -/
theorem nodup_get?_inj {α : Type} {l : List α} (h : l.Nodup) {i j : Nat}
    {a : α} (hi : l.get? i = some a) (hj : l.get? j = some a) : i = j := by
  have hlen : i < l.length := by
    by_contra hcon
    rw [List.get?_eq_none.mpr (by omega)] at hi
    exact Option.noConfusion hi
  exact List.get?_inj hlen h (hi.trans hj.symm)

/-- The joint behaviour of the index map and
`getOriginalIndexByDisplayIndex` at one non-header display row, for a
catalog with pairwise-distinct identity triples: the lookup returns a
valid catalog index whose record is the one at sorted position `k` and the
one shown at display row `d`. -/
theorem getOrig_spec (projects : List Project)
    (hnd : (projects.map triple).Nodup) (d : Nat) (k : Int)
    (hk : (projectIndices projects).get? d = some k) (hne : k ≠ -1) :
    ∃ (i : Nat) (p : Project),
      getOriginalIndexByDisplayIndex projects (d : Int) = (i : Int) ∧
      i < projects.length ∧
      projects.get? i = some p ∧
      (getSortedProjects projects).get? k.toNat = some p ∧
      (updateTableRows projects).get? d = some (Row.record p) := by
  have hk2 : (buildRows (getSortedProjects projects) [] 0).2.get? d = some k :=
    hk
  obtain ⟨j, p, hsj, hkj, hrow⟩ :=
    buildRows_record_spec (getSortedProjects projects) [] 0 d k hk2 hne
  have hkj2 : k = (j : Int) := by simpa using hkj
  subst hkj2
  have hjlen : j < (getSortedProjects projects).length := by
    by_contra hcon
    rw [List.get?_eq_none.mpr (by omega)] at hsj
    exact Option.noConfusion hsj
  have hdlen : d < (projectIndices projects).length := by
    by_contra hcon
    rw [List.get?_eq_none.mpr (by omega)] at hk
    exact Option.noConfusion hk
  have heval : getOriginalIndexByDisplayIndex projects (d : Int) =
      findOrig projects p := by
    simp only [getOriginalIndexByDisplayIndex]
    rw [if_neg (by omega)]
    have hgetd : (projectIndices projects).getD ((d : Int)).toNat (-1) =
        (j : Int) := by
      simp only [Int.toNat_natCast]
      rw [List.getD_eq_getD_get?, hk]
      rfl
    rw [hgetd, if_neg hne, if_neg (by omega)]
    simp only [Int.toNat_natCast]
    rw [List.getD_eq_getD_get?, hsj]
    rfl
  have hpmem : p ∈ projects :=
    (getSortedProjects_perm projects).mem_iff.mp (List.get?_mem hsj)
  obtain ⟨i, hfi, r, hri, htr⟩ := findOrig_found projects p ⟨p, hpmem, rfl⟩
  obtain ⟨i0, hi0⟩ := List.mem_iff_get?.mp hpmem
  have hmapi : (projects.map triple).get? i = some (triple p) := by
    rw [List.get?_map, hri]
    simp [htr]
  have hmapi0 : (projects.map triple).get? i0 = some (triple p) := by
    rw [List.get?_map, hi0]
    rfl
  have hii0 : i = i0 := nodup_get?_inj hnd hmapi hmapi0
  subst hii0
  have hrp : r = p := Option.some.inj (hri.symm.trans hi0)
  subst hrp
  have hilen : i < projects.length := by
    by_contra hcon
    rw [List.get?_eq_none.mpr (by omega)] at hri
    exact Option.noConfusion hri
  exact ⟨i, r, heval.trans hfi, hilen, hri, by simpa using hsj, hrow⟩

/-- **C1** (corrected, amended): provided no two catalog records share the
same `(name, path, command)` identity triple, `getOriginalIndexByDisplayIndex`
returns, at every non-header display row, a valid catalog index whose
record is the one at that row's sorted position and the one shown at that
display row; and distinct non-header display rows yield distinct catalog
indices.  (Without the distinct-triples hypothesis the first-match
identity resolution can send two display rows to the same catalog index;
see the counterexample.) -/
theorem c1_original_index_map (projects : List Project)
    (hnd : (projects.map triple).Nodup) :
    (∀ (d : Nat) (k : Int),
        (projectIndices projects).get? d = some k → k ≠ -1 →
        ∃ (i : Nat) (p : Project),
          getOriginalIndexByDisplayIndex projects (d : Int) = (i : Int) ∧
          i < projects.length ∧
          projects.get? i = some p ∧
          (getSortedProjects projects).get? k.toNat = some p ∧
          (updateTableRows projects).get? d = some (Row.record p)) ∧
    (∀ (d1 d2 : Nat) (k1 k2 : Int), d1 ≠ d2 →
        (projectIndices projects).get? d1 = some k1 → k1 ≠ -1 →
        (projectIndices projects).get? d2 = some k2 → k2 ≠ -1 →
        getOriginalIndexByDisplayIndex projects (d1 : Int) ≠
          getOriginalIndexByDisplayIndex projects (d2 : Int)) := by
  constructor
  · intro d k hk hne
    exact getOrig_spec projects hnd d k hk hne
  · intro d1 d2 k1 k2 hd hk1 hne1 hk2 hne2
    obtain ⟨i1, p1, he1, _, hp1, hs1, _⟩ :=
      getOrig_spec projects hnd d1 k1 hk1 hne1
    obtain ⟨i2, p2, he2, _, hp2, hs2, _⟩ :=
      getOrig_spec projects hnd d2 k2 hk2 hne2
    have hkk : k1 ≠ k2 := by
      rcases Nat.lt_or_ge d1 d2 with h | h
      · exact ne_of_lt (buildRows_mono (getSortedProjects projects) [] 0
          d1 d2 k1 k2 h hk1 hk2 hne1 hne2)
      · have hlt : d2 < d1 := by omega
        exact (ne_of_lt (buildRows_mono (getSortedProjects projects) [] 0
          d2 d1 k2 k1 hlt hk2 hk1 hne2 hne1)).symm
    have hnn1 : 0 ≤ k1 := by
      rcases buildRows_lb (getSortedProjects projects) [] 0 d1 k1 hk1 with
        h | h
      · exact absurd h hne1
      · simpa using h
    have hnn2 : 0 ≤ k2 := by
      rcases buildRows_lb (getSortedProjects projects) [] 0 d2 k2 hk2 with
        h | h
      · exact absurd h hne2
      · simpa using h
    have htn : k1.toNat ≠ k2.toNat := by omega
    intro heq
    rw [he1, he2] at heq
    have hii : i1 = i2 := by exact_mod_cast heq
    subst hii
    have hpp : p1 = p2 := Option.some.inj (hp1.symm.trans hp2)
    subst hpp
    have hsortnd : ((getSortedProjects projects).map triple).Nodup :=
      ((getSortedProjects_perm projects).map triple).nodup_iff.mpr hnd
    have hm1 : ((getSortedProjects projects).map triple).get? k1.toNat =
        some (triple p1) := by
      rw [List.get?_map, hs1]
      rfl
    have hm2 : ((getSortedProjects projects).map triple).get? k2.toNat =
        some (triple p1) := by
      rw [List.get?_map, hs2]
      rfl
    exact htn (nodup_get?_inj hsortnd hm1 hm2)

/-- **C1** witness: the scenario catalog has pairwise-distinct triples;
display rows 1 and 3 are record rows and resolve to distinct catalog
indices. -/
theorem c1_original_index_map_witness :
    getOriginalIndexByDisplayIndex scenarioCatalog 1 ≠
      getOriginalIndexByDisplayIndex scenarioCatalog 3 :=
  (c1_original_index_map scenarioCatalog (by decide)).2 1 3 0 1
    (by decide) (by decide) (by decide) (by decide) (by decide)

/-- **C1** counterexample: with two records sharing the `(name, path,
command)` triple, display rows 1 and 3 are both record rows but both
resolve to catalog index 0 - the indices are not pairwise distinct - and
row 3 shows `dupRecY` while the record at the returned index 0 is
`dupRecX`. -/
theorem c1_duplicate_triple_cex :
    projectIndices dupCatalog = [-1, 0, -1, 1] ∧
    getOriginalIndexByDisplayIndex dupCatalog 1 = 0 ∧
    getOriginalIndexByDisplayIndex dupCatalog 3 = 0 ∧
    (updateTableRows dupCatalog).get? 3 = some (Row.record dupRecY) ∧
    dupCatalog.get? 0 = some dupRecX ∧
    dupRecX ≠ dupRecY := by decide
